import Mathlib

/-!
Shallow embedding of `src/MyBot/dependencies/include/dpp-10.0/dpp/isa/avx512.h`
(namespace `dpp`, class `audio_mixer`).

Modelling conventions:
* IEEE-754 binary32 values are modelled as exact rationals (`ℚ`); every
  arithmetic intrinsic (`_mm512_mul_ps`, `_mm512_add_ps`) applies the
  round-to-nearest-even rounding function `fl` to the exact result, exactly as
  binary32 hardware does for finite values.  NaN and infinity are not
  modelled (no claim exercises them); the exponent is not clamped above,
  so binary32 overflow to infinity is outside the model.
* 512-bit registers are `Fin 16 → ℚ` (float lanes) or `Fin 16 → ℤ`
  (packed 32-bit integer lanes), lane 0 corresponding to the lowest
  32 bits, matching `extract_int32_from_avx512`.
* Scalar sample buffers (`int32_t*`, `int16_t*`) are `ℕ → ℤ`: the kernels
  only ever access indices `0 ≤ x < byte_blocks_per_register`, which the
  embedding makes explicit, and the C narrowing casts are embedded as
  wrap-around reduction into the 16-bit / 32-bit signed range.
-/

namespace dpp

/-- Fuel-indexed floor of `log₂`: `log2fuel fuel n` is `⌊log₂ n⌋` whenever
`1 ≤ n ≤ fuel`.  Structural recursion on the fuel keeps it kernel-reducible. -/
def log2fuel : ℕ → ℕ → ℕ
  | 0, _ => 0
  | f + 1, n => if n < 2 then 0 else log2fuel f (n / 2) + 1

/-- Floor of `log₂ n` for `n ≥ 1` (0 at 0). -/
def natLog2 (n : ℕ) : ℕ := log2fuel n n

/-- Floor of `log₂ q` for a positive rational `q`, i.e. the unique `e` with
`2^e ≤ q < 2^(e+1)`.  Computed from the bit lengths of numerator and
denominator followed by one correction step. -/
def ilog2q (q : ℚ) : ℤ :=
  if (2 : ℚ) ^ ((natLog2 q.num.natAbs : ℤ) - (natLog2 q.den : ℤ)) ≤ q
  then (natLog2 q.num.natAbs : ℤ) - (natLog2 q.den : ℤ)
  else (natLog2 q.num.natAbs : ℤ) - (natLog2 q.den : ℤ) - 1

/-- Round a rational to the nearest integer, ties to even — the IEEE-754
default rounding used by `_mm512_cvtps_epi32` and by binary32 arithmetic. -/
def rne (q : ℚ) : ℤ :=
  if q - ⌊q⌋ < 1 / 2 then ⌊q⌋
  else if 1 / 2 < q - ⌊q⌋ then ⌊q⌋ + 1
  else if ⌊q⌋ % 2 = 0 then ⌊q⌋ else ⌊q⌋ + 1

/-- Round a rational to the nearest IEEE-754 binary32 value (round to
nearest, ties to even), returned as an exact rational.  Subnormals are
handled by clamping the binade exponent at -126 (giving an ulp of 2^-149);
the exponent is not clamped above (overflow not modelled). -/
def fl (q : ℚ) : ℚ :=
  if q = 0 then 0
  else
    (rne (q / (2 : ℚ) ^ (max (ilog2q |q|) (-126) - 23)) : ℚ)
      * (2 : ℚ) ^ (max (ilog2q |q|) (-126) - 23)

/-- Scalar semantics of one lane of `_mm512_cvtps_epi32`: convert a binary32
value to a 32-bit signed integer with round-to-nearest-even; values whose
rounding falls outside the `int32_t` range yield the "integer indefinite"
value `0x80000000 = -2^31`. -/
def cvtps_scalar (q : ℚ) : ℤ :=
  if rne q < -(2 ^ 31) ∨ 2 ^ 31 - 1 < rne q then -(2 ^ 31) else rne q

/-- Wrap-around semantics of `static_cast<int16_t>` applied to a 32-bit
signed integer: reduction modulo 2^16 into `[-32768, 32767]`. -/
def int16_cast (z : ℤ) : ℤ := (z + 2 ^ 15) % 2 ^ 16 - 2 ^ 15

/-- Wrap-around semantics of `static_cast<int32_t>`: reduction modulo 2^32
into `[-2^31, 2^31 - 1]` (the identity on every in-range value). -/
def int32_cast (z : ℤ) : ℤ := (z + 2 ^ 31) % 2 ^ 32 - 2 ^ 31

/-- Lane `i` of `_mm512_set1_ps x`. -/
def mm512_set1_ps (x : ℚ) : Fin 16 → ℚ := fun _ => x

/-- Lane-wise `_mm512_mul_ps` with binary32 rounding of each product. -/
def mm512_mul_ps (a b : Fin 16 → ℚ) : Fin 16 → ℚ := fun i => fl (a i * b i)

/-- Lane-wise `_mm512_add_ps` with binary32 rounding of each sum. -/
def mm512_add_ps (a b : Fin 16 → ℚ) : Fin 16 → ℚ := fun i => fl (a i + b i)

/-- Lane-wise `_mm512_cmp_ps_mask` with predicate `_CMP_GE_OQ`
(ordered greater-or-equal; all modelled values are ordered). -/
def mm512_cmp_ps_mask_ge (a b : Fin 16 → ℚ) : Fin 16 → Bool :=
  fun i => decide (b i ≤ a i)

/-- Negation of an `__mmask16` lane mask (the `~mask_ge` in the source). -/
def mask_not (k : Fin 16 → Bool) : Fin 16 → Bool := fun i => ! k i

/-- Lane-wise `_mm512_mask_max_ps src k a b`: `max (a i) (b i)` on lanes
where the mask is set, `src i` elsewhere.  On the rationals (no NaN) the
hardware maximum is the ordinary maximum. -/
def mm512_mask_max_ps (src : Fin 16 → ℚ) (k : Fin 16 → Bool) (a b : Fin 16 → ℚ) :
    Fin 16 → ℚ :=
  fun i => if k i then max (a i) (b i) else src i

/-- Lane-wise `_mm512_mask_min_ps src k a b`. -/
def mm512_mask_min_ps (src : Fin 16 → ℚ) (k : Fin 16 → Bool) (a b : Fin 16 → ℚ) :
    Fin 16 → ℚ :=
  fun i => if k i then min (a i) (b i) else src i

/-- Lane `i` of the `_mm512_set_ps(0.0f, 1.0f, ..., 15.0f)` ramp constant in
`collect_single_register`: `_mm512_set_ps` lists lanes from highest to
lowest, so lane `i` holds the value `15 - i` (largest constant in lane 0). -/
def ramp_ps : Fin 16 → ℚ := fun i => (15 : ℚ) - ((i : ℕ) : ℚ)

/-- Lane-wise `_mm512_cvtps_epi32`. -/
def mm512_cvtps_epi32 (v : Fin 16 → ℚ) : Fin 16 → ℤ := fun i => cvtps_scalar (v i)

/-- Embeds `extract_int32_from_avx512`: lane `index` of a packed 32-bit
integer register (the source stores the register to memory and reads the
indexed element; every call site uses `0 ≤ index < 16`). -/
def extract_int32_from_avx512 (value : Fin 16 → ℤ) (index : Fin 16) : ℤ :=
  value index

/-- Embeds `audio_mixer::byte_blocks_per_register` (16 32-bit lanes). -/
def byte_blocks_per_register : ℕ := 16

/-- Embeds `audio_mixer::store_values<value_type>`: writes
`static_cast<value_type>(lane x)` to `storage_location[x]` for
`0 ≤ x < byte_blocks_per_register` and touches nothing else.  The template
parameter `value_type` is represented by the wrap-around cast `conv`
(`int16_cast` or `int32_cast`). -/
def store_values (conv : ℤ → ℤ) (values_to_store : Fin 16 → ℤ)
    (storage_location : ℕ → ℤ) : ℕ → ℤ :=
  fun x =>
    if h : x < byte_blocks_per_register then
      conv (extract_int32_from_avx512 values_to_store ⟨x, h⟩)
    else storage_location x

/-- Embeds `audio_mixer::gather_values<value_type>`: lane `x` holds
`static_cast<float>(values[x])`, i.e. the binary32 rounding of the integer
element (exact only for magnitudes up to 2^24). -/
def gather_values (values : ℕ → ℤ) : Fin 16 → ℚ :=
  fun x => fl ((values (x : ℕ) : ℤ) : ℚ)

/-- Per-lane gain vector of `collect_single_register`:
`_mm512_add_ps(_mm512_set1_ps(current_gain),
_mm512_mul_ps(_mm512_set1_ps(increment), ramp))`. -/
def lane_gains (current_gain increment : ℚ) : Fin 16 → ℚ :=
  mm512_add_ps (mm512_set1_ps current_gain)
    (mm512_mul_ps (mm512_set1_ps increment) ramp_ps)

/-- Embeds `audio_mixer::collect_single_register`: gather `data_in`, multiply
by the per-lane gain ramp, run the two masked clamp passes of the source
(`max` with `INT16_MIN` on lanes `≥ 0`, `min` with `INT16_MAX` on lanes
`< 0`), convert to packed 32-bit integers and store through the narrowing
`int16_t` cast.  Returns the updated `data_out` buffer. -/
def collect_single_register (data_in data_out : ℕ → ℤ)
    (current_gain increment : ℚ) : ℕ → ℤ :=
  let current_samples_new :=
    mm512_mul_ps (gather_values data_in) (lane_gains current_gain increment)
  let mask_ge := mm512_cmp_ps_mask_ge current_samples_new (mm512_set1_ps 0)
  let pass1 :=
    mm512_mask_max_ps current_samples_new mask_ge current_samples_new
      (mm512_set1_ps (-32768))
  let pass2 :=
    mm512_mask_min_ps pass1 (mask_not mask_ge) pass1 (mm512_set1_ps 32767)
  store_values int16_cast (mm512_cvtps_epi32 pass2) data_out

/-- Embeds `audio_mixer::combine_samples`: gather both buffers to float,
add lane-wise, convert to packed 32-bit integers and store back into
`up_sampled_vector`.  Returns the updated `up_sampled_vector`;
`decoded_data` is only read. -/
def combine_samples (up_sampled_vector decoded_data : ℕ → ℤ) : ℕ → ℤ :=
  store_values int32_cast
    (mm512_cvtps_epi32
      (mm512_add_ps (gather_values up_sampled_vector)
        (gather_values decoded_data)))
    up_sampled_vector

/-! Arithmetic facts about the rounding model. -/

/-- Correctness of the fuelled binary logarithm on its intended domain. -/
theorem log2fuel_spec :
    ∀ fuel n : ℕ, 1 ≤ n → n ≤ fuel →
      2 ^ log2fuel fuel n ≤ n ∧ n < 2 ^ (log2fuel fuel n + 1) := by
  intro fuel
  induction fuel with
  | zero => intro n h1 h2; omega
  | succ f ih =>
    intro n h1 h2
    rw [log2fuel]
    by_cases h : n < 2
    · rw [if_pos h]; simp; omega
    · rw [if_neg h]
      obtain ⟨ihl, ihr⟩ := ih (n / 2) (by omega) (by omega)
      rw [pow_succ, pow_succ]
      constructor
      · omega
      · rw [pow_succ] at ihr; omega

/-- Correctness of `natLog2` for positive arguments. -/
theorem natLog2_spec (n : ℕ) (h : 1 ≤ n) :
    2 ^ natLog2 n ≤ n ∧ n < 2 ^ (natLog2 n + 1) :=
  log2fuel_spec n n h le_rfl

/-- Correctness of `ilog2q`: it returns the binade exponent of a positive
rational. -/
theorem ilog2q_spec (q : ℚ) (hq : 0 < q) :
    (2 : ℚ) ^ ilog2q q ≤ q ∧ q < (2 : ℚ) ^ (ilog2q q + 1) := by
  have hnum : 0 < q.num := Rat.num_pos.mpr hq
  have hn1 : 1 ≤ q.num.natAbs := by omega
  have hd1 : 1 ≤ q.den := q.den_pos
  obtain ⟨ha1, ha2⟩ := natLog2_spec q.num.natAbs hn1
  obtain ⟨hb1, hb2⟩ := natLog2_spec q.den hd1
  set a := natLog2 q.num.natAbs with hadef
  set b := natLog2 q.den with hbdef
  have hdenQ : (0 : ℚ) < (q.den : ℚ) := by exact_mod_cast hd1
  have hnumQ : (q.num : ℚ) = (q.num.natAbs : ℚ) := by
    have h := Int.natAbs_of_nonneg hnum.le
    calc (q.num : ℚ) = ((q.num.natAbs : ℤ) : ℚ) := by rw [h]
      _ = (q.num.natAbs : ℚ) := Int.cast_natCast _
  have hQ1 : (2 : ℚ) ^ (a : ℤ) ≤ (q.num : ℚ) := by
    rw [hnumQ, zpow_natCast]; exact_mod_cast ha1
  have hQ2 : (q.num : ℚ) < (2 : ℚ) ^ ((a : ℤ) + 1) := by
    rw [hnumQ]
    have : ((a : ℤ) + 1) = ((a + 1 : ℕ) : ℤ) := by push_cast; ring
    rw [this, zpow_natCast]; exact_mod_cast ha2
  have hQ3 : (2 : ℚ) ^ (b : ℤ) ≤ (q.den : ℚ) := by
    rw [zpow_natCast]; exact_mod_cast hb1
  have hQ4 : (q.den : ℚ) < (2 : ℚ) ^ ((b : ℤ) + 1) := by
    have : ((b : ℤ) + 1) = ((b + 1 : ℕ) : ℤ) := by push_cast; ring
    rw [this, zpow_natCast]; exact_mod_cast hb2
  have hqe : q = (q.num : ℚ) / (q.den : ℚ) := (Rat.num_div_den q).symm
  have hUp : q < (2 : ℚ) ^ ((a : ℤ) - (b : ℤ) + 1) := by
    rw [hqe, div_lt_iff₀ hdenQ]
    calc (q.num : ℚ) < (2 : ℚ) ^ ((a : ℤ) + 1) := hQ2
      _ = (2 : ℚ) ^ ((a : ℤ) - (b : ℤ) + 1) * (2 : ℚ) ^ (b : ℤ) := by
          rw [← zpow_add₀ (by norm_num : (2:ℚ) ≠ 0)]; ring_nf
      _ ≤ (2 : ℚ) ^ ((a : ℤ) - (b : ℤ) + 1) * (q.den : ℚ) := by
          have h2 : (0:ℚ) < (2 : ℚ) ^ ((a : ℤ) - (b : ℤ) + 1) := by positivity
          exact mul_le_mul_of_nonneg_left hQ3 h2.le
  have hLo : (2 : ℚ) ^ ((a : ℤ) - (b : ℤ) - 1) < q := by
    rw [hqe, lt_div_iff₀ hdenQ]
    calc (2 : ℚ) ^ ((a : ℤ) - (b : ℤ) - 1) * (q.den : ℚ)
        < (2 : ℚ) ^ ((a : ℤ) - (b : ℤ) - 1) * (2 : ℚ) ^ ((b : ℤ) + 1) := by
          have h2 : (0:ℚ) < (2 : ℚ) ^ ((a : ℤ) - (b : ℤ) - 1) := by positivity
          exact mul_lt_mul_of_pos_left hQ4 h2
      _ = (2 : ℚ) ^ (a : ℤ) := by
          rw [← zpow_add₀ (by norm_num : (2:ℚ) ≠ 0)]; ring_nf
      _ ≤ (q.num : ℚ) := hQ1
  rw [ilog2q]
  split_ifs with h
  · exact ⟨h, hUp⟩
  · refine ⟨hLo.le, ?_⟩
    have : (a : ℤ) - (b : ℤ) - 1 + 1 = (a : ℤ) - (b : ℤ) := by ring
    rw [this]
    exact lt_of_not_ge fun hcon => h hcon

/-- Rounding an integer is the identity. -/
theorem rne_intCast (z : ℤ) : rne (z : ℚ) = z := by
  rw [rne, Int.floor_intCast, sub_self]
  norm_num

/-- Round-to-nearest-even at an exact half-integer: the even neighbour of
`z + 1/2` is chosen. -/
theorem rne_add_half (z : ℤ) :
    rne ((z : ℚ) + 1 / 2) = if z % 2 = 0 then z else z + 1 := by
  have hfloor : ⌊(z : ℚ) + 1 / 2⌋ = z := by
    rw [Int.floor_int_add]
    have : ⌊(1 / 2 : ℚ)⌋ = 0 := by
      rw [Int.floor_eq_zero_iff]
      constructor <;> norm_num
    omega
  rw [rne, hfloor]
  have hsub : (z : ℚ) + 1 / 2 - z = 1 / 2 := by ring
  rw [hsub, if_neg (lt_irrefl _), if_neg (lt_irrefl _)]

/-- Dyadic rationals `m / 2^k` with `|m| ≤ 2^24` and `k ≤ 126` are exactly
representable in binary32, so the rounding `fl` fixes them. -/
theorem fl_dyadic (m : ℤ) (k : ℕ) (hm : m ≠ 0) (hm24 : |m| ≤ 2 ^ 24)
    (hk : k ≤ 126) : fl ((m : ℚ) / 2 ^ k) = (m : ℚ) / 2 ^ k := by
  have h2 : (2 : ℚ) ≠ 0 := by norm_num
  have hmQ : (m : ℚ) ≠ 0 := Int.cast_ne_zero.mpr hm
  have hpk : (0 : ℚ) < 2 ^ k := by positivity
  have hq0 : (m : ℚ) / 2 ^ k ≠ 0 := div_ne_zero hmQ hpk.ne'
  have habs : |(m : ℚ) / 2 ^ k| = ((|m| : ℤ) : ℚ) / 2 ^ k := by
    rw [abs_div, abs_pow, abs_two, ← Int.cast_abs]
  have hqpos : (0 : ℚ) < |(m : ℚ) / 2 ^ k| := abs_pos.mpr hq0
  obtain ⟨he1, he2⟩ := ilog2q_spec _ hqpos
  set e := ilog2q |(m : ℚ) / 2 ^ k| with hedef
  have habs1 : (1 : ℚ) ≤ ((|m| : ℤ) : ℚ) := by
    have : (0 : ℤ) < |m| := abs_pos.mpr hm
    exact_mod_cast this
  have hm24Q : ((|m| : ℤ) : ℚ) ≤ (2 : ℚ) ^ (24 : ℤ) := by
    calc ((|m| : ℤ) : ℚ) ≤ ((2 ^ 24 : ℤ) : ℚ) := by exact_mod_cast hm24
      _ = (2 : ℚ) ^ (24 : ℤ) := by push_cast; norm_num
  have hlow : (2 : ℚ) ^ (-(k : ℤ)) ≤ |(m : ℚ) / 2 ^ k| := by
    rw [habs, zpow_neg, zpow_natCast, inv_eq_one_div]
    gcongr
  have he_ge : -(k : ℤ) ≤ e := by
    by_contra hcon
    push_neg at hcon
    have hle : (2 : ℚ) ^ (e + 1) ≤ (2 : ℚ) ^ (-(k : ℤ)) :=
      zpow_le_zpow_right₀ (by norm_num) (by omega)
    linarith
  have hemax : e ⊔ (-126) = e := max_eq_left (by omega)
  have hscale : ((m : ℚ) / 2 ^ k) / (2 : ℚ) ^ (e - 23)
      = (m : ℚ) * (2 : ℚ) ^ (23 - e - (k : ℤ)) := by
    rw [div_eq_mul_inv, div_eq_mul_inv, ← zpow_natCast (2 : ℚ) k, ← zpow_neg,
      ← zpow_neg, mul_assoc, ← zpow_add₀ h2]
    congr 2
    ring
  have hbig : (2 : ℚ) ^ (e + (k : ℤ)) ≤ ((|m| : ℤ) : ℚ) := by
    rw [habs, le_div_iff₀ hpk] at he1
    calc (2 : ℚ) ^ (e + (k : ℤ)) = (2 : ℚ) ^ e * (2 : ℚ) ^ (k : ℤ) := zpow_add₀ h2 _ _
      _ = (2 : ℚ) ^ e * 2 ^ k := by rw [zpow_natCast]
      _ ≤ ((|m| : ℤ) : ℚ) := he1
  have he_le : e + (k : ℤ) ≤ 24 := by
    by_contra hcon
    push_neg at hcon
    have h25 : (2 : ℚ) ^ (25 : ℤ) ≤ (2 : ℚ) ^ (e + (k : ℤ)) :=
      zpow_le_zpow_right₀ (by norm_num) (by omega)
    have : (2 : ℚ) ^ (25 : ℤ) ≤ (2 : ℚ) ^ (24 : ℤ) :=
      le_trans h25 (le_trans hbig hm24Q)
    norm_num at this
  rw [fl, if_neg hq0, ← hedef, hemax]
  rcases (by omega : 0 ≤ 23 - e - (k : ℤ) ∨ 23 - e - (k : ℤ) = -1) with hj | hj
  · have hjz : ((23 - e - (k : ℤ)).toNat : ℤ) = 23 - e - (k : ℤ) :=
      Int.toNat_of_nonneg hj
    have hint : ((m : ℚ) / 2 ^ k) / (2 : ℚ) ^ (e - 23)
        = ((m * 2 ^ (23 - e - (k : ℤ)).toNat : ℤ) : ℚ) := by
      rw [hscale]
      push_cast
      rw [← zpow_natCast (2 : ℚ) (23 - e - (k : ℤ)).toNat, hjz]
    rw [hint, rne_intCast]
    push_cast
    rw [← zpow_natCast (2 : ℚ) (23 - e - (k : ℤ)).toNat, hjz, mul_assoc,
      ← zpow_add₀ h2, div_eq_mul_inv, ← zpow_natCast (2 : ℚ) k, ← zpow_neg]
    congr 2
    ring
  · have hdvd : (2 : ℤ) ∣ m := by
      have h24 : e + (k : ℤ) = 24 := by omega
      have hb : (2 : ℚ) ^ (24 : ℤ) ≤ ((|m| : ℤ) : ℚ) := by rw [← h24]; exact hbig
      have h1 : ((2 ^ 24 : ℤ) : ℚ) ≤ ((|m| : ℤ) : ℚ) := by
        calc ((2 ^ 24 : ℤ) : ℚ) = (2 : ℚ) ^ (24 : ℤ) := by push_cast; norm_num
          _ ≤ _ := hb
      have h2' : (2 ^ 24 : ℤ) ≤ |m| := by exact_mod_cast h1
      have habs24 : |m| = 2 ^ 24 := le_antisymm hm24 h2'
      rcases abs_cases m with ⟨hcc, _⟩ | ⟨hcc, _⟩
      · exact ⟨2 ^ 23, by omega⟩
      · exact ⟨-2 ^ 23, by omega⟩
    obtain ⟨c, hc⟩ := hdvd
    have hint : ((m : ℚ) / 2 ^ k) / (2 : ℚ) ^ (e - 23) = ((m / 2 : ℤ) : ℚ) := by
      rw [hscale, hj, hc, Int.mul_ediv_cancel_left c (by norm_num)]
      push_cast
      rw [zpow_neg, zpow_one]
      ring
    rw [hint, rne_intCast, hc, Int.mul_ediv_cancel_left c (by norm_num)]
    push_cast
    rw [div_eq_mul_inv, ← zpow_natCast (2 : ℚ) k, ← zpow_neg,
      show e - 23 = 1 + -(k : ℤ) by omega, zpow_add₀ h2, zpow_one]
    ring

/-- Rounding fixes zero. -/
theorem fl_zero : fl 0 = 0 := by simp [fl]

/-- Integers of magnitude at most 2^24 are exactly representable in binary32. -/
theorem fl_int (z : ℤ) (h : |z| ≤ 2 ^ 24) : fl (z : ℚ) = z := by
  rcases eq_or_ne z 0 with hz | hz
  · subst hz; simpa using fl_zero
  · have := fl_dyadic z 0 hz h (by norm_num)
    simpa using this

/-- The float-to-int32 conversion agrees with round-to-nearest-even whenever
the rounded value fits in `int32_t`. -/
theorem cvtps_scalar_eq (q : ℚ) (h1 : -(2 ^ 31) ≤ rne q) (h2 : rne q ≤ 2 ^ 31 - 1) :
    cvtps_scalar q = rne q := by
  rw [cvtps_scalar, if_neg (by omega)]

/-- The narrowing `int16_t` cast always lands in the signed 16-bit range. -/
theorem int16_cast_mem (z : ℤ) :
    -(2 ^ 15) ≤ int16_cast z ∧ int16_cast z ≤ 2 ^ 15 - 1 := by
  rw [int16_cast]
  have h1 := Int.emod_nonneg (z + 2 ^ 15) (by norm_num : (2 ^ 16 : ℤ) ≠ 0)
  have h2 := Int.emod_lt_of_pos (z + 2 ^ 15) (by norm_num : (0 : ℤ) < 2 ^ 16)
  omega

/-- The narrowing `int16_t` cast is the identity on in-range values. -/
theorem int16_cast_id (z : ℤ) (h1 : -(2 ^ 15) ≤ z) (h2 : z ≤ 2 ^ 15 - 1) :
    int16_cast z = z := by
  rw [int16_cast, Int.emod_eq_of_lt (by omega) (by omega)]
  omega

/-- The `int32_t` cast is the identity on in-range values. -/
theorem int32_cast_id (z : ℤ) (h1 : -(2 ^ 31) ≤ z) (h2 : z ≤ 2 ^ 31 - 1) :
    int32_cast z = z := by
  rw [int32_cast, Int.emod_eq_of_lt (by omega) (by omega)]
  omega

/-- The two masked clamp passes of `collect_single_register` are the
identity on every lane: the `max` against `INT16_MIN` is applied only on
lanes that are already `≥ 0`, and the `min` against `INT16_MAX` only on
lanes that are `< 0`, so neither pass ever changes a value (the masks are
swapped relative to a saturating clamp). -/
theorem clamp_passes_noop (v : Fin 16 → ℚ) (i : Fin 16) :
    mm512_mask_min_ps
      (mm512_mask_max_ps v (mm512_cmp_ps_mask_ge v (mm512_set1_ps 0)) v
        (mm512_set1_ps (-32768)))
      (mask_not (mm512_cmp_ps_mask_ge v (mm512_set1_ps 0)))
      (mm512_mask_max_ps v (mm512_cmp_ps_mask_ge v (mm512_set1_ps 0)) v
        (mm512_set1_ps (-32768)))
      (mm512_set1_ps 32767) i = v i := by
  simp only [mm512_mask_min_ps, mm512_mask_max_ps, mask_not,
    mm512_cmp_ps_mask_ge, mm512_set1_ps]
  by_cases h : (0 : ℚ) ≤ v i
  · have hb : decide ((0 : ℚ) ≤ v i) = true := decide_eq_true h
    simp only [hb, Bool.not_true, if_true, Bool.false_eq_true, if_false]
    exact max_eq_left (by linarith)
  · have hb : decide ((0 : ℚ) ≤ v i) = false := decide_eq_false h
    simp only [hb, Bool.not_false, if_true, Bool.false_eq_true, if_false]
    exact min_eq_left (by push_neg at h; linarith)

/-- Scalar characterization of one written lane of
`collect_single_register`: lane `i < 16` of the output holds the narrowing
cast of the int32 conversion of
`fl(gathered input · fl(current_gain + fl(increment · (15 - i))))`. -/
theorem collect_lane (data_in data_out : ℕ → ℤ) (g inc : ℚ) (i : ℕ) (hi : i < 16) :
    collect_single_register data_in data_out g inc i
      = int16_cast (cvtps_scalar
          (fl (fl (data_in i) * fl (g + fl (inc * ((15 : ℚ) - (i : ℚ))))))) := by
  rw [collect_single_register]
  rw [store_values]
  rw [dif_pos (show i < byte_blocks_per_register from hi)]
  rw [extract_int32_from_avx512, mm512_cvtps_epi32]
  rw [clamp_passes_noop]
  rw [mm512_mul_ps, gather_values, lane_gains, mm512_add_ps, mm512_set1_ps,
    mm512_mul_ps, mm512_set1_ps, ramp_ps]

/-- Lanes at or beyond `byte_blocks_per_register` are not written by
`collect_single_register`. -/
theorem collect_frame (data_in data_out : ℕ → ℤ) (g inc : ℚ) (i : ℕ)
    (hi : ¬ i < 16) :
    collect_single_register data_in data_out g inc i = data_out i := by
  rw [collect_single_register, store_values,
    dif_neg (show ¬ i < byte_blocks_per_register from hi)]

/-- Scalar characterization of one written lane of `combine_samples`. -/
theorem combine_lane (up dec : ℕ → ℤ) (i : ℕ) (hi : i < 16) :
    combine_samples up dec i
      = int32_cast (cvtps_scalar (fl (fl (up i) + fl (dec i)))) := by
  rw [combine_samples, store_values,
    dif_pos (show i < byte_blocks_per_register from hi)]
  rw [extract_int32_from_avx512, mm512_cvtps_epi32, mm512_add_ps,
    gather_values, gather_values]

/-- Lanes at or beyond `byte_blocks_per_register` are not written by
`combine_samples`. -/
theorem combine_frame (up dec : ℕ → ℤ) (i : ℕ) (hi : ¬ i < 16) :
    combine_samples up dec i = up i := by
  rw [combine_samples, store_values,
    dif_neg (show ¬ i < byte_blocks_per_register from hi)]

/-- Constant sample buffer, used for the concrete test vectors. -/
def constBuf (v : ℤ) : ℕ → ℤ := fun _ => v

/-- Value of a constant buffer at any index. -/
theorem constBuf_apply (v : ℤ) (i : ℕ) : constBuf v i = v := rfl

/-- Numeral-friendly wrapper of `fl_int`. -/
theorem fl_num (z : ℤ) (q : ℚ) (hq : q = (z : ℚ)) (h : |z| ≤ 2 ^ 24) :
    fl q = q := by
  subst hq; exact fl_int z h

/-- Numeral-friendly wrapper of `fl_dyadic`. -/
theorem fl_div_pow (m : ℤ) (k : ℕ) (q : ℚ) (hq : q = (m : ℚ) / 2 ^ k)
    (hm : m ≠ 0) (h : |m| ≤ 2 ^ 24) (hk : k ≤ 126) : fl q = q := by
  subst hq; exact fl_dyadic m k hm h hk

/-- Conversion of an exactly-integral float in the `int32_t` range. -/
theorem cvtps_num (z : ℤ) (q : ℚ) (hq : q = (z : ℚ)) (hlo : -(2 ^ 31) ≤ z)
    (hhi : z ≤ 2 ^ 31 - 1) : cvtps_scalar q = z := by
  subst hq
  rw [cvtps_scalar_eq _ (by rw [rne_intCast]; omega) (by rw [rne_intCast]; omega),
    rne_intCast]

/-- Specialisation of `collect_lane` to `increment = 0`: every lane gets the
same multiplier `fl current_gain`. -/
theorem collect_inc_zero (data_in data_out : ℕ → ℤ) (g : ℚ) (i : ℕ)
    (hi : i < 16) :
    collect_single_register data_in data_out g 0 i
      = int16_cast (cvtps_scalar (fl (fl (data_in i) * fl g))) := by
  rw [collect_lane data_in data_out g 0 i hi,
    show (0 : ℚ) * ((15 : ℚ) - (i : ℚ)) = 0 by ring, fl_zero, add_zero]

/-- Exact lane-wise sums: when both inputs and their sum have magnitude at
most 2^24, `combine_samples` stores the exact integer sum. -/
theorem combine_exact (up dec : ℕ → ℤ) (i : ℕ) (hi : i < 16)
    (h1 : |up i| ≤ 2 ^ 24) (h2 : |dec i| ≤ 2 ^ 24)
    (h3 : |up i + dec i| ≤ 2 ^ 24) :
    combine_samples up dec i = up i + dec i := by
  have hb := abs_le.mp h3
  rw [combine_lane up dec i hi, fl_int (up i) h1, fl_int (dec i) h2,
    show ((up i : ℚ) + (dec i : ℚ)) = ((up i + dec i : ℤ) : ℚ) by push_cast; ring,
    fl_int _ h3,
    cvtps_scalar_eq _ (by rw [rne_intCast]; omega) (by rw [rne_intCast]; omega),
    rne_intCast]
  exact int32_cast_id _ (by omega) (by omega)

/-! Claims. -/

/-- C1: for every input buffer, every gain/increment pair and every written
lane, the value `collect_single_register` stores in `data_out` lies in the
signed 16-bit range `[-32768, 32767]` (the narrowing cast wraps into that
range unconditionally). -/
theorem claim_C1 (data_in data_out : ℕ → ℤ) (g inc : ℚ) (i : ℕ) (hi : i < 16) :
    -32768 ≤ collect_single_register data_in data_out g inc i ∧
      collect_single_register data_in data_out g inc i ≤ 32767 := by
  rw [collect_lane data_in data_out g inc i hi]
  have h := int16_cast_mem
    (cvtps_scalar (fl (fl (data_in i) * fl (g + fl (inc * ((15 : ℚ) - (i : ℚ)))))))
  norm_num at h ⊢
  omega

/-- Witness for C1 at a concrete input. -/
theorem claim_C1_witness :
    -32768 ≤ collect_single_register (constBuf 12345) (constBuf 0) (3 / 2) (1 / 4) 0 ∧
      collect_single_register (constBuf 12345) (constBuf 0) (3 / 2) (1 / 4) 0 ≤ 32767 :=
  claim_C1 (constBuf 12345) (constBuf 0) (3 / 2) (1 / 4) 0 (by norm_num)

/-- C2: when the post-multiply rounded 32-bit lane value lies outside
`[-32768, 32767]`, the value stored in `data_out` is that 32-bit value
reduced modulo 2^16 and reinterpreted in the signed 16-bit range, and in
particular constant input 20000 with `current_gain = 2`, `increment = 0`
stores -25536 in a lane. -/
theorem claim_C2 (data_in data_out : ℕ → ℤ) (g inc : ℚ) (i : ℕ) (hi : i < 16)
    (_hv : cvtps_scalar (fl (fl (data_in i) * fl (g + fl (inc * ((15 : ℚ) - (i : ℚ)))))) < -32768 ∨
      32767 < cvtps_scalar (fl (fl (data_in i) * fl (g + fl (inc * ((15 : ℚ) - (i : ℚ))))))) :
    collect_single_register data_in data_out g inc i
      = (cvtps_scalar (fl (fl (data_in i) * fl (g + fl (inc * ((15 : ℚ) - (i : ℚ))))))
          + 2 ^ 15) % 2 ^ 16 - 2 ^ 15 ∧
    collect_single_register (constBuf 20000) (constBuf 0) 2 0 0 = -25536 := by
  constructor
  · rw [collect_lane data_in data_out g inc i hi, int16_cast]
  · rw [collect_inc_zero _ _ _ _ (by norm_num), constBuf_apply,
      fl_int 20000 (by norm_num),
      fl_num 2 (2 : ℚ) (by norm_num) (by norm_num),
      show ((20000 : ℤ) : ℚ) * 2 = ((40000 : ℤ) : ℚ) by push_cast; ring,
      fl_int 40000 (by norm_num),
      cvtps_num 40000 _ rfl (by norm_num) (by norm_num)]
    decide

/-- Witness for C2: at constant input 20000 with gain 2 the rounded 32-bit
lane value is 40000, outside the 16-bit range, and the claim applies. -/
theorem claim_C2_witness :
    collect_single_register (constBuf 20000) (constBuf 0) 2 0 0
      = (cvtps_scalar (fl (fl (constBuf 20000 0) * fl (2 + fl (0 * ((15 : ℚ) - ((0 : ℕ) : ℚ))))))
          + 2 ^ 15) % 2 ^ 16 - 2 ^ 15 ∧
    collect_single_register (constBuf 20000) (constBuf 0) 2 0 0 = -25536 := by
  have hval : cvtps_scalar (fl (fl (constBuf 20000 0)
      * fl (2 + fl (0 * ((15 : ℚ) - ((0 : ℕ) : ℚ)))))) = 40000 := by
    rw [constBuf_apply, show (0 : ℚ) * ((15 : ℚ) - ((0 : ℕ) : ℚ)) = 0 by ring,
      fl_zero, add_zero, fl_int 20000 (by norm_num),
      fl_num 2 (2 : ℚ) (by norm_num) (by norm_num),
      show ((20000 : ℤ) : ℚ) * 2 = ((40000 : ℤ) : ℚ) by push_cast; ring,
      fl_int 40000 (by norm_num)]
    exact cvtps_num 40000 _ rfl (by norm_num) (by norm_num)
  exact claim_C2 (constBuf 20000) (constBuf 0) 2 0 0 (by norm_num)
    (by rw [hval]; right; norm_num)

/-- Lane value of the per-lane gain vector, read off the definition. -/
theorem lane_gains_eq (g inc : ℚ) (i : Fin 16) :
    lane_gains g inc i = fl (g + fl (inc * ((15 : ℚ) - ((i : ℕ) : ℚ)))) := rfl

/-- C3: the gain multiplier applied to lane `i` is
`current_gain + increment * (lane_count - 1 - i)` (exactly, whenever the
two float operations involved are exact), so the largest multiplier goes to
lane 0 and the base gain to lane 15; with `current_gain = 0`, all-ones
input and `increment = 1`, output lane 0 is 15 = lane_count - 1 (its
clamped value) and output lane 15 is 0. -/
theorem claim_C3 (g inc : ℚ) (i : Fin 16)
    (h1 : fl (inc * ((15 : ℚ) - ((i : ℕ) : ℚ))) = inc * ((15 : ℚ) - ((i : ℕ) : ℚ)))
    (h2 : fl (g + inc * ((15 : ℚ) - ((i : ℕ) : ℚ))) = g + inc * ((15 : ℚ) - ((i : ℕ) : ℚ))) :
    lane_gains g inc i = g + inc * ((15 : ℚ) - ((i : ℕ) : ℚ)) ∧
    collect_single_register (constBuf 1) (constBuf 0) 0 1 0 = 15 ∧
    collect_single_register (constBuf 1) (constBuf 0) 0 1 15 = 0 := by
  refine ⟨by rw [lane_gains_eq, h1, h2], ?_, ?_⟩
  · rw [collect_lane _ _ _ _ 0 (by norm_num), constBuf_apply,
      show (1 : ℚ) * ((15 : ℚ) - ((0 : ℕ) : ℚ)) = ((15 : ℤ) : ℚ) by push_cast; ring,
      fl_int 15 (by norm_num),
      show (0 : ℚ) + ((15 : ℤ) : ℚ) = ((15 : ℤ) : ℚ) by ring,
      fl_int 15 (by norm_num), fl_int 1 (by norm_num),
      show ((1 : ℤ) : ℚ) * ((15 : ℤ) : ℚ) = ((15 : ℤ) : ℚ) by push_cast; ring,
      fl_int 15 (by norm_num), cvtps_num 15 _ rfl (by norm_num) (by norm_num)]
    decide
  · rw [collect_lane _ _ _ _ 15 (by norm_num), constBuf_apply,
      show (1 : ℚ) * ((15 : ℚ) - ((15 : ℕ) : ℚ)) = 0 by push_cast; ring,
      fl_zero,
      show (0 : ℚ) + 0 = ((0 : ℤ) : ℚ) by norm_num,
      fl_int 0 (by norm_num), fl_int 1 (by norm_num),
      show ((1 : ℤ) : ℚ) * ((0 : ℤ) : ℚ) = ((0 : ℤ) : ℚ) by push_cast; ring,
      fl_int 0 (by norm_num), cvtps_num 0 _ rfl (by norm_num) (by norm_num)]
    decide

/-- Witness for C3 with an exactly representable nontrivial ramp:
`current_gain = 3/2`, `increment = 1/4`, lane 2 (coefficient 13). -/
theorem claim_C3_witness :
    lane_gains (3 / 2) (1 / 4) 2 = 3 / 2 + 1 / 4 * ((15 : ℚ) - (((2 : Fin 16) : ℕ) : ℚ)) ∧
    collect_single_register (constBuf 1) (constBuf 0) 0 1 0 = 15 ∧
    collect_single_register (constBuf 1) (constBuf 0) 0 1 15 = 0 := by
  have h1 : fl ((1 / 4 : ℚ) * ((15 : ℚ) - (((2 : Fin 16) : ℕ) : ℚ)))
      = (1 / 4 : ℚ) * ((15 : ℚ) - (((2 : Fin 16) : ℕ) : ℚ)) := by
    rw [show ((1 / 4 : ℚ) * ((15 : ℚ) - (((2 : Fin 16) : ℕ) : ℚ))) = (13 : ℚ) / 2 ^ 2 by norm_num]
    exact fl_div_pow 13 2 _ (by norm_num) (by norm_num) (by norm_num) (by norm_num)
  have h2 : fl ((3 / 2 : ℚ) + (1 / 4 : ℚ) * ((15 : ℚ) - (((2 : Fin 16) : ℕ) : ℚ)))
      = (3 / 2 : ℚ) + (1 / 4 : ℚ) * ((15 : ℚ) - (((2 : Fin 16) : ℕ) : ℚ)) := by
    rw [show ((3 / 2 : ℚ) + (1 / 4 : ℚ) * ((15 : ℚ) - (((2 : Fin 16) : ℕ) : ℚ))) = (19 : ℚ) / 2 ^ 2 by norm_num]
    exact fl_div_pow 19 2 _ (by norm_num) (by norm_num) (by norm_num) (by norm_num)
  exact claim_C3 (3 / 2) (1 / 4) 2 h1 h2

/-- C4 records the clamp defect: the spec requires saturation
`clamp(round(V * current_gain))`, but the two masked clamp passes never
fire (C2's wraparound is what actually happens), so constant input 20000
with gain 2 stores -25536 in every written lane instead of the 32767 the
claim requires. -/
theorem claim_C4 (i : ℕ) (hi : i < 16) :
    collect_single_register (constBuf 20000) (constBuf 0) 2 0 i = -25536 ∧
    (-25536 : ℤ) ≠ 32767 := by
  refine ⟨?_, by decide⟩
  rw [collect_inc_zero _ _ _ _ hi, constBuf_apply,
    fl_int 20000 (by norm_num),
    fl_num 2 (2 : ℚ) (by norm_num) (by norm_num),
    show ((20000 : ℤ) : ℚ) * 2 = ((40000 : ℤ) : ℚ) by push_cast; ring,
    fl_int 40000 (by norm_num), cvtps_num 40000 _ rfl (by norm_num) (by norm_num)]
  decide

/-- Witness for C4 at lane 0. -/
theorem claim_C4_witness :
    collect_single_register (constBuf 20000) (constBuf 0) 2 0 0 = -25536 ∧
    (-25536 : ℤ) ≠ 32767 :=
  claim_C4 0 (by norm_num)

/-- Evaluation rule for `fl` from the binade exponent and the rounded scaled
mantissa. -/
theorem fl_eval (q : ℚ) (hq : q ≠ 0) (e : ℤ) (he : ilog2q |q| = e)
    (hemax : -126 ≤ e) (m : ℤ) (hm : rne (q / 2 ^ (e - 23)) = m) :
    fl q = (m : ℚ) * 2 ^ (e - 23) := by
  rw [fl, if_neg hq, he, max_eq_left hemax, hm]

/-- Rounding 2^24 + 1 to binary32 loses the final bit (tie to even). -/
theorem fl_16777217 : fl (16777217 : ℚ) = 16777216 := by
  have hn : natLog2 (16777217 : ℚ).num.natAbs = 24 := by decide
  have hd : natLog2 (16777217 : ℚ).den = 0 := by decide
  have he : ilog2q |(16777217 : ℚ)| = 24 := by
    rw [abs_of_pos (by norm_num), ilog2q, hn, hd]
    norm_num
  have hm : rne ((16777217 : ℚ) / 2 ^ ((24 : ℤ) - 23)) = 8388608 := by
    rw [show (16777217 : ℚ) / 2 ^ ((24 : ℤ) - 23) = ((8388608 : ℤ) : ℚ) + 1 / 2 by norm_num,
      rne_add_half]
    norm_num
  rw [fl_eval _ (by norm_num) 24 he (by norm_num) _ hm]
  norm_num

/-- Rounding 2^24 + 3 to binary32 rounds up to 2^24 + 4 (tie to even). -/
theorem fl_16777219 : fl (16777219 : ℚ) = 16777220 := by
  have hn : natLog2 (16777219 : ℚ).num.natAbs = 24 := by decide
  have hd : natLog2 (16777219 : ℚ).den = 0 := by decide
  have he : ilog2q |(16777219 : ℚ)| = 24 := by
    rw [abs_of_pos (by norm_num), ilog2q, hn, hd]
    norm_num
  have hm : rne ((16777219 : ℚ) / 2 ^ ((24 : ℤ) - 23)) = 8388610 := by
    rw [show (16777219 : ℚ) / 2 ^ ((24 : ℤ) - 23) = ((8388609 : ℤ) : ℚ) + 1 / 2 by norm_num,
      rne_add_half]
    norm_num
  rw [fl_eval _ (by norm_num) 24 he (by norm_num) _ hm]
  norm_num

/-- The even value 2^24 + 4 is exactly representable in binary32. -/
theorem fl_16777220 : fl (16777220 : ℚ) = 16777220 := by
  have hn : natLog2 (16777220 : ℚ).num.natAbs = 24 := by decide
  have hd : natLog2 (16777220 : ℚ).den = 0 := by decide
  have he : ilog2q |(16777220 : ℚ)| = 24 := by
    rw [abs_of_pos (by norm_num), ilog2q, hn, hd]
    norm_num
  have hm : rne ((16777220 : ℚ) / 2 ^ ((24 : ℤ) - 23)) = 8388610 := by
    rw [show (16777220 : ℚ) / 2 ^ ((24 : ℤ) - 23) = ((8388610 : ℤ) : ℚ) by norm_num,
      rne_intCast]
  rw [fl_eval _ (by norm_num) 24 he (by norm_num) _ hm]
  norm_num

/-- C5 (amended): `combine_samples` stores the exact lane-wise sum whenever
both lane values and their sum have magnitude at most 2^24; in particular
`up = [100]*16` combined with `dec = [50]*16` yields 150 in every written
lane.  (The magnitude bound on the sum is necessary — see the
counterexample.) -/
theorem claim_C5 (up dec : ℕ → ℤ) (i : ℕ) (hi : i < 16)
    (h1 : |up i| ≤ 2 ^ 24) (h2 : |dec i| ≤ 2 ^ 24)
    (h3 : |up i + dec i| ≤ 2 ^ 24) :
    combine_samples up dec i = up i + dec i ∧
    combine_samples (constBuf 100) (constBuf 50) i = 150 := by
  refine ⟨combine_exact up dec i hi h1 h2 h3, ?_⟩
  have h := combine_exact (constBuf 100) (constBuf 50) i hi
    (by norm_num [constBuf]) (by norm_num [constBuf]) (by norm_num [constBuf])
  rw [h, constBuf_apply, constBuf_apply]
  decide

/-- Witness for C5 at lane 0. -/
theorem claim_C5_witness :
    combine_samples (constBuf 100) (constBuf 50) 0 = constBuf 100 0 + constBuf 50 0 ∧
    combine_samples (constBuf 100) (constBuf 50) 0 = 150 :=
  claim_C5 (constBuf 100) (constBuf 50) 0 (by norm_num)
    (by norm_num [constBuf]) (by norm_num [constBuf]) (by norm_num [constBuf])

/-- Counterexample to C5 as stated: both inputs are exactly representable
(2^24 and 1 lie in the float-representable integer range), yet the stored
lane is 2^24, not the elementwise sum 2^24 + 1 — the sum itself must also
be representable. -/
theorem claim_C5_counterexample :
    combine_samples (constBuf 16777216) (constBuf 1) 0 = 16777216 ∧
    constBuf 16777216 0 + constBuf 1 0 = 16777217 ∧
    (16777216 : ℤ) ≠ 16777217 := by
  refine ⟨?_, by decide, by decide⟩
  rw [combine_lane _ _ 0 (by norm_num), constBuf_apply, constBuf_apply,
    fl_int 16777216 (by norm_num), fl_int 1 (by norm_num),
    show ((16777216 : ℤ) : ℚ) + ((1 : ℤ) : ℚ) = (16777217 : ℚ) by push_cast; ring,
    fl_16777217,
    show (16777216 : ℚ) = ((16777216 : ℤ) : ℚ) by norm_num,
    cvtps_num 16777216 _ rfl (by norm_num) (by norm_num)]
  exact int32_cast_id _ (by norm_num) (by norm_num)

/-- C6: frame of both kernels.  Lanes `≥ 16` of the output buffer are left
untouched by either kernel, and each written lane depends only on the first
16 elements of the input buffers (so exactly the first `lane_count`
elements are read and written).  The embedding already makes the remaining
guarantees structural: `combine_samples` returns only the updated
`up_sampled_vector` and never writes `decoded_data`, and
`collect_single_register` never writes `data_in`; neither kernel has any
state besides its parameters. -/
theorem claim_C6 (din din2 dout dout2 up up2 dec dec2 : ℕ → ℤ) (g inc : ℚ)
    (i j : ℕ) (hiw : 16 ≤ i) (hj : j < 16)
    (hread : ∀ x, x < 16 → din x = din2 x)
    (hread2 : ∀ x, x < 16 → up x = up2 x ∧ dec x = dec2 x) :
    collect_single_register din dout g inc i = dout i ∧
    combine_samples up dec i = up i ∧
    collect_single_register din dout g inc j
      = collect_single_register din2 dout2 g inc j ∧
    combine_samples up dec j = combine_samples up2 dec2 j := by
  refine ⟨collect_frame din dout g inc i (by omega),
    combine_frame up dec i (by omega), ?_, ?_⟩
  · rw [collect_lane din dout g inc j hj, collect_lane din2 dout2 g inc j hj,
      hread j hj]
  · rw [combine_lane up dec j hj, combine_lane up2 dec2 j hj,
      (hread2 j hj).1, (hread2 j hj).2]

/-- Witness for C6 at concrete buffers, `i = 16`, `j = 0`. -/
theorem claim_C6_witness :
    collect_single_register (constBuf 5) (constBuf 3) 1 0 16 = constBuf 3 16 ∧
    combine_samples (constBuf 7) (constBuf 2) 16 = constBuf 7 16 ∧
    collect_single_register (constBuf 5) (constBuf 3) 1 0 0
      = collect_single_register (constBuf 5) (constBuf 9) 1 0 0 ∧
    combine_samples (constBuf 7) (constBuf 2) 0 = combine_samples (constBuf 7) (constBuf 2) 0 :=
  claim_C6 (constBuf 5) (constBuf 5) (constBuf 3) (constBuf 9) (constBuf 7)
    (constBuf 7) (constBuf 2) (constBuf 2) 1 0 16 0 (by norm_num) (by norm_num)
    (fun _ _ => rfl) (fun _ _ => ⟨rfl, rfl⟩)

/-- C7: round-trip.  Feeding the narrow output block of
`collect_single_register` (its values widen to `int32` unchanged) into
`combine_samples` together with an all-zero buffer stores the same values
back unchanged: every output value lies in `[-32768, 32767]`, hence is
exactly representable and fixed by the gather/add/convert pipeline. -/
theorem claim_C7 (din dout : ℕ → ℤ) (g inc : ℚ) (i : ℕ) (hi : i < 16) :
    combine_samples (collect_single_register din dout g inc) (constBuf 0) i
      = collect_single_register din dout g inc i := by
  have hmem := int16_cast_mem
    (cvtps_scalar (fl (fl (din i) * fl (g + fl (inc * ((15 : ℚ) - (i : ℚ)))))))
  have hout := collect_lane din dout g inc i hi
  have h1 : |collect_single_register din dout g inc i| ≤ 2 ^ 24 := by
    rw [hout, abs_le]
    norm_num at hmem ⊢
    omega
  have hsum : |collect_single_register din dout g inc i + constBuf 0 i| ≤ 2 ^ 24 := by
    rw [constBuf_apply, add_zero]
    exact h1
  have h := combine_exact (collect_single_register din dout g inc) (constBuf 0)
    i hi h1 (by norm_num [constBuf]) hsum
  rw [h, constBuf_apply, add_zero]

/-- Witness for C7. -/
theorem claim_C7_witness :
    combine_samples (collect_single_register (constBuf 1000) (constBuf 0) 2 0) (constBuf 0) 0
      = collect_single_register (constBuf 1000) (constBuf 0) 2 0 0 :=
  claim_C7 (constBuf 1000) (constBuf 0) 2 0 0 (by norm_num)

/-- C8 (amended): zero is an identity for `combine_samples` lane-wise,
provided the nonzero buffer's lane value has magnitude at most 2^24 (always
true of the 16-bit `decoded_data` buffer, an extra condition for the 32-bit
buffer — see the counterexample). -/
theorem claim_C8 (up dec : ℕ → ℤ) (i : ℕ) (hi : i < 16)
    (hdec : |dec i| ≤ 2 ^ 24) (hup : |up i| ≤ 2 ^ 24) :
    ((∀ j, j < 16 → up j = 0) → combine_samples up dec i = dec i) ∧
    ((∀ j, j < 16 → dec j = 0) → combine_samples up dec i = up i) := by
  constructor
  · intro hz
    have h0 : up i = 0 := hz i hi
    have h := combine_exact up dec i hi (by rw [h0]; norm_num) hdec
      (by rw [h0, zero_add]; exact hdec)
    rw [h, h0, zero_add]
  · intro hz
    have h0 : dec i = 0 := hz i hi
    have h := combine_exact up dec i hi hup (by rw [h0]; norm_num)
      (by rw [h0, add_zero]; exact hup)
    rw [h, h0, add_zero]

/-- Witness for C8: a zero wide buffer returns the decoded value. -/
theorem claim_C8_witness :
    combine_samples (constBuf 0) (constBuf 50) 0 = constBuf 50 0 :=
  (claim_C8 (constBuf 0) (constBuf 50) 0 (by norm_num) (by norm_num [constBuf])
    (by norm_num [constBuf])).1 (fun _ _ => rfl)

/-- Counterexample to C8 as stated: with `decoded_data` all zero and the
wide buffer holding 2^24 + 1, the stored lane is 2^24 — the pass through
binary32 does not leave values of magnitude above 2^24 unchanged. -/
theorem claim_C8_counterexample :
    combine_samples (constBuf 16777217) (constBuf 0) 0 = 16777216 ∧
    (16777216 : ℤ) ≠ constBuf 16777217 0 := by
  refine ⟨?_, by decide⟩
  rw [combine_lane _ _ 0 (by norm_num), constBuf_apply, constBuf_apply,
    show ((16777217 : ℤ) : ℚ) = (16777217 : ℚ) by norm_num, fl_16777217,
    show ((0 : ℤ) : ℚ) = (0 : ℚ) by norm_num, fl_zero, add_zero,
    show (16777216 : ℚ) = ((16777216 : ℤ) : ℚ) by norm_num,
    fl_int 16777216 (by norm_num),
    cvtps_num 16777216 _ rfl (by norm_num) (by norm_num)]
  exact int32_cast_id _ (by norm_num) (by norm_num)

/-- Conversion of an exact half-integer: the shared float-to-int32
conversion picks a neighbour by parity. -/
theorem cvtps_half (z : ℤ) (q : ℚ) (hq : q = (z : ℚ) + 1 / 2)
    (hz1 : -(2 ^ 31) ≤ z) (hz2 : z < 2 ^ 31 - 1) :
    cvtps_scalar q = if z % 2 = 0 then z else z + 1 := by
  subst hq
  have hr := rne_add_half z
  rw [cvtps_scalar_eq _ (by rw [hr]; split <;> omega) (by rw [hr]; split <;> omega),
    hr]

/-- C9: the float-to-int conversion `cvtps_scalar` shared by both kernels
(`_mm512_cvtps_epi32` in `collect_single_register` and in
`combine_samples`) rounds to nearest with ties to even: every exact
half-integer is sent to its even neighbour; through the full ramp kernel,
lane value 0.5 (input 1, gain 1/2) stores 0 and lane value 2.5 (input 5,
gain 1/2) stores 2. -/
theorem claim_C9 (z : ℤ) (h1 : -(2 ^ 31) ≤ z) (h2 : z < 2 ^ 31 - 1) :
    (cvtps_scalar ((z : ℚ) + 1 / 2) = z ∨ cvtps_scalar ((z : ℚ) + 1 / 2) = z + 1) ∧
    cvtps_scalar ((z : ℚ) + 1 / 2) % 2 = 0 ∧
    collect_single_register (constBuf 1) (constBuf 0) (1 / 2) 0 0 = 0 ∧
    collect_single_register (constBuf 5) (constBuf 0) (1 / 2) 0 0 = 2 := by
  have hch := cvtps_half z _ rfl h1 h2
  refine ⟨?_, ?_, ?_, ?_⟩
  · rw [hch]; split_ifs <;> [exact Or.inl rfl; exact Or.inr rfl]
  · rw [hch]; split_ifs with hpar <;> omega
  · rw [collect_inc_zero _ _ _ _ (by norm_num), constBuf_apply,
      fl_int 1 (by norm_num),
      fl_div_pow 1 1 (1 / 2 : ℚ) (by norm_num) (by norm_num) (by norm_num) (by norm_num),
      show ((1 : ℤ) : ℚ) * (1 / 2) = (1 / 2 : ℚ) by push_cast; ring,
      fl_div_pow 1 1 (1 / 2 : ℚ) (by norm_num) (by norm_num) (by norm_num) (by norm_num),
      cvtps_half 0 (1 / 2 : ℚ) (by norm_num) (by norm_num) (by norm_num)]
    decide
  · rw [collect_inc_zero _ _ _ _ (by norm_num), constBuf_apply,
      fl_int 5 (by norm_num),
      fl_div_pow 1 1 (1 / 2 : ℚ) (by norm_num) (by norm_num) (by norm_num) (by norm_num),
      show ((5 : ℤ) : ℚ) * (1 / 2) = (5 / 2 : ℚ) by push_cast; ring,
      fl_div_pow 5 1 (5 / 2 : ℚ) (by norm_num) (by norm_num) (by norm_num) (by norm_num),
      cvtps_half 2 (5 / 2 : ℚ) (by norm_num) (by norm_num) (by norm_num)]
    decide

/-- Witness for C9 at the odd half-integer 7.5 (rounds up to 8). -/
theorem claim_C9_witness :
    (cvtps_scalar (((7 : ℤ) : ℚ) + 1 / 2) = 7 ∨ cvtps_scalar (((7 : ℤ) : ℚ) + 1 / 2) = 7 + 1) ∧
    cvtps_scalar (((7 : ℤ) : ℚ) + 1 / 2) % 2 = 0 ∧
    collect_single_register (constBuf 1) (constBuf 0) (1 / 2) 0 0 = 0 ∧
    collect_single_register (constBuf 5) (constBuf 0) (1 / 2) 0 0 = 2 :=
  claim_C9 7 (by norm_num) (by norm_num)

/-- C10: every scalar input passes through binary32 in `gather_values`, so
`combine_samples` is exact whenever both lane values and their sum have
magnitude at most 2^24; for larger 32-bit inputs the gathered value — and
hence the stored result — can differ from the exact integer: input
2^24 + 3 gathers (and stores, against an all-zero second buffer) as
2^24 + 4. -/
theorem claim_C10 (up dec : ℕ → ℤ) (i : ℕ) (hi : i < 16)
    (h1 : |up i| ≤ 2 ^ 24) (h2 : |dec i| ≤ 2 ^ 24)
    (h3 : |up i + dec i| ≤ 2 ^ 24) :
    combine_samples up dec i = up i + dec i ∧
    gather_values (constBuf 16777219) 0 = 16777220 ∧
    combine_samples (constBuf 16777219) (constBuf 0) 0 = 16777220 ∧
    (16777220 : ℤ) ≠ 16777219 := by
  refine ⟨combine_exact up dec i hi h1 h2 h3, ?_, ?_, by decide⟩
  · rw [gather_values, constBuf_apply,
      show ((16777219 : ℤ) : ℚ) = (16777219 : ℚ) by norm_num, fl_16777219]
  · rw [combine_lane _ _ 0 (by norm_num), constBuf_apply, constBuf_apply,
      show ((16777219 : ℤ) : ℚ) = (16777219 : ℚ) by norm_num, fl_16777219,
      show ((0 : ℤ) : ℚ) = (0 : ℚ) by norm_num, fl_zero, add_zero,
      fl_16777220,
      show (16777220 : ℚ) = ((16777220 : ℤ) : ℚ) by norm_num,
      cvtps_num 16777220 _ rfl (by norm_num) (by norm_num)]
    exact int32_cast_id _ (by norm_num) (by norm_num)

/-- Witness for C10 at lane 0 with small values. -/
theorem claim_C10_witness :
    (combine_samples (constBuf 200) (constBuf 25) 0 = constBuf 200 0 + constBuf 25 0 ∧
     gather_values (constBuf 16777219) 0 = 16777220 ∧
     combine_samples (constBuf 16777219) (constBuf 0) 0 = 16777220 ∧
     (16777220 : ℤ) ≠ 16777219) :=
  claim_C10 (constBuf 200) (constBuf 25) 0 (by norm_num)
    (by norm_num [constBuf]) (by norm_num [constBuf]) (by norm_num [constBuf])

end dpp
